import Mathlib

set_option maxHeartbeats 1000000
set_option maxRecDepth 8000

namespace LaytonFS

/-! Shallow embedding of the filesystem core of the repository
(`src/formats/filesystem.py`).  Bytes are `Nat`s; Python `bytes` values are
`List Nat`; PLZ entry names are kept as their raw byte lists (the legacy
shift-jis encoding of `formats/binary.py` is outside `src/`).  Machine
integers are `Nat` with explicit `% 2^w` where the binary layer truncates. -/

/-- Modelled from the spec: `BinaryWriter.write_uint32` (formats/binary.py is
not in src/) packs a value into four little-endian bytes. -/
def toU32 (v : Nat) : List Nat :=
  [v % 256, v / 256 % 256, v / 65536 % 256, v / 16777216 % 256]

/-- Modelled from the spec: `BinaryReader.read_uint32` decodes the bytes it
read little-endian. -/
def fromLEBytes : List Nat → Nat
  | [] => 0
  | b :: rest => b + 256 * fromLEBytes rest

/-- The `u32` field of a byte buffer at a given offset, as the reader's
`read_uint32` would return after seeking there. -/
def u32At (data : List Nat) (off : Nat) : Nat :=
  fromLEBytes ((data.drop off).take 4)

/-- Modelled from the spec: `BinaryWriter` is a cursor over a growable byte
buffer with `io.BytesIO` semantics: a write at a cursor past the end
zero-fills the gap, a write inside the buffer overwrites in place. -/
structure BinaryWriter where
  data : List Nat
  c : Nat

def BinaryWriter.write (w : BinaryWriter) (bs : List Nat) : BinaryWriter :=
  let d := w.data ++ List.replicate (w.c - w.data.length) 0
  ⟨d.take w.c ++ bs ++ d.drop (w.c + bs.length), w.c + bs.length⟩

def BinaryWriter.write_uint32 (w : BinaryWriter) (v : Nat) : BinaryWriter :=
  w.write (toU32 v)

/-- Modelled from the spec: `write_string` writes the name bytes followed by a
zero terminator (the `+ 1` in the record header size formula). -/
def BinaryWriter.write_string (w : BinaryWriter) (s : List Nat) : BinaryWriter :=
  w.write (s ++ [0])

def BinaryWriter.seek (w : BinaryWriter) (pos : Nat) : BinaryWriter :=
  ⟨w.data, pos⟩

/-- `padZeros w n` writes `n` single zero bytes; `write_stream` uses it for
`while wtr.c != c + total_size: wtr.write_uint8(0)` with `n` the distance to
the target (that loop only ever starts with the cursor strictly before the
target, so counting down the distance is the same iteration). -/
def BinaryWriter.padZeros : BinaryWriter → Nat → BinaryWriter
  | w, 0 => w
  | w, n + 1 => BinaryWriter.padZeros (w.write [0]) n

/-- Modelled from the spec: `BinaryReader` is a cursor over a byte buffer.
`read` past the end returns the available bytes. -/
structure BinaryReader where
  data : List Nat
  c : Nat

def BinaryReader.read (r : BinaryReader) (n : Nat) : List Nat × BinaryReader :=
  ((r.data.drop r.c).take n, ⟨r.data, r.c + n⟩)

def BinaryReader.read_uint32 (r : BinaryReader) : Nat × BinaryReader :=
  let p := r.read 4
  (fromLEBytes p.1, p.2)

/-- Modelled from the spec: `read_string` reads the zero-terminated name and
consumes the terminator; the raw bytes are kept. -/
def BinaryReader.read_string (r : BinaryReader) : List Nat × BinaryReader :=
  let s := (r.data.drop r.c).takeWhile (fun b => b ≠ 0)
  (s, ⟨r.data, r.c + s.length + 1⟩)

def BinaryReader.seek (r : BinaryReader) (pos : Nat) : BinaryReader :=
  ⟨r.data, pos⟩

/-- `header_size` as computed at src/formats/filesystem.py:502-503:
`header_size = 16 + len(name) + 1` then `header_size += 4 - header_size % 4`. -/
def record_header_size (name : List Nat) : Nat :=
  let hs := 16 + name.length + 1
  hs + (4 - hs % 4)

/-- `total_size` as computed at src/formats/filesystem.py:505-506. -/
def record_total_size (name payload : List Nat) : Nat :=
  let ts := record_header_size name + payload.length
  ts + (4 - ts % 4)

/-- Modelled from the spec's words: `align4` "rounds up to the next multiple
of 4 and leaves values that are already multiples of 4 unchanged". -/
def align4 (v : Nat) : Nat := 4 * ((v + 3) / 4)

/-- The smallest multiple of 4 strictly greater than `v`; what the encoder's
`v + (4 - v % 4)` actually computes. -/
def next4 (v : Nat) : Nat := 4 * (v / 4 + 1)

/-- The observable state of a `RomFile` handle
(src/formats/filesystem.py:65-108): slot index `id`, operation `opp` in
{'r','w','a'}, and the in-memory buffer of the underlying `BytesIO`. -/
structure RomFile where
  id : Nat
  opp : Char
  buffer : List Nat
deriving DecidableEq

/-- `PlzArchive` state (src/formats/filesystem.py:448-457): parallel name and
payload lists, plus the open-handle registry the handles register in. -/
structure PlzArchive where
  filenames : List (List Nat)
  files : List (List Nat)
  opened_files : List RomFile
deriving DecidableEq

def pck2 : List Nat := [80, 67, 75, 50]

/-- The record loop of `PlzArchive.write_stream`
(src/formats/filesystem.py:501-518), one iteration per (name, payload) pair. -/
def writeRecords : List (List Nat × List Nat) → BinaryWriter → BinaryWriter
  | [], w => w
  | (name, payload) :: rest, w =>
    let header_size := record_header_size name
    let total_size := record_total_size name payload
    let c := w.c
    let w := w.write_uint32 header_size
    let w := w.write_uint32 total_size
    let w := w.write_uint32 0
    let w := w.write_uint32 payload.length
    let w := w.write_string name
    let w := w.seek (c + header_size)
    let w := w.write payload
    let w := w.padZeros (c + total_size - w.c)
    writeRecords rest w

/-- `PlzArchive.write_stream` (src/formats/filesystem.py:490-522): the 16-byte
header, the record loop (`for i in range(len(self.files))`, rendered as a walk
over `filenames.zip files`; the source indexes `filenames[i]` so the lists move
in lock-step, see the length invariant), then the back-patch of the final
stream length at byte offset 4.  Returns the produced byte buffer. -/
def PlzArchive.write_stream (a : PlzArchive) : List Nat :=
  let w : BinaryWriter := ⟨[], 0⟩
  let w := w.write_uint32 16
  let w := w.write_uint32 0
  let w := w.write pck2
  let w := w.write_uint32 0
  let w := writeRecords (a.filenames.zip a.files) w
  let file_size := w.data.length
  let w := w.seek 4
  let w := w.write_uint32 file_size
  w.data

/-- The record loop of `PlzArchive.read_stream`
(src/formats/filesystem.py:473-488), with fuel: running out of fuel models the
non-terminating executions the Python `while` would have on malformed size
fields. -/
def readRecords : BinaryReader → Nat → List (List Nat) → List (List Nat) → Nat →
    Option (List (List Nat) × List (List Nat))
  | _, _, _, _, 0 => none
  | r, archive_file_size, ns, fs, fuel + 1 =>
    if r.c < archive_file_size then
      let start_pos := r.c
      let p1 := r.read_uint32
      let file_header_size := p1.1
      let r := p1.2
      let p2 := r.read_uint32
      let file_total_size := p2.1
      let r := p2.2
      let r := r.seek (r.c + 4)
      let p3 := r.read_uint32
      let file_size := p3.1
      let r := p3.2
      let p4 := r.read_string
      let filename := p4.1
      let r := p4.2
      let r := r.seek (start_pos + file_header_size)
      let p5 := r.read file_size
      let file := p5.1
      let r := p5.2
      let r := r.seek (start_pos + file_total_size)
      readRecords r archive_file_size (ns ++ [filename]) (fs ++ [file]) fuel
    else
      some (ns, fs)

/-- `PlzArchive.read_stream` (src/formats/filesystem.py:459-488).  The method
first resets `self.filenames` and `self.files` (lines 465-466), reads the
header fields, then asserts the magic `b"PCK2"`; an assertion failure is the
corrupt-format error, carried here as `.error` holding the state the object has
at that point (the cleared lists).  On success the records parsed from offset
`header_size` up to `archive_file_size` replace the lists. -/
def PlzArchive.read_stream (self : PlzArchive) (data : List Nat) :
    Except PlzArchive PlzArchive :=
  let cleared : PlzArchive := { self with filenames := [], files := [] }
  let r : BinaryReader := ⟨data, 0⟩
  let p1 := r.read_uint32
  let header_size := p1.1
  let r := p1.2
  let p2 := r.read_uint32
  let archive_file_size := p2.1
  let r := p2.2
  let p3 := r.read 4
  let magic := p3.1
  let r := p3.2
  if magic = pck2 then
    let r := r.seek header_size
    match readRecords r archive_file_size [] [] (data.length + 1) with
    | some (ns, fs) => .ok { self with filenames := ns, files := fs }
    | none => .error cleared
  else
    .error cleared

/-- First index of a byte-list name, Python `list.index` / `in`. -/
def idxOf? : List (List Nat) → List Nat → Option Nat
  | [], _ => none
  | x :: xs, a => if x = a then some 0 else (idxOf? xs a).map (· + 1)

/-- `PlzArchive.add_file` (src/formats/filesystem.py:555-560): the new id is
`len(self.files)` taken before the append; an empty payload and the name are
appended. -/
def PlzArchive.add_file (a : PlzArchive) (filename : List Nat) : Nat × PlzArchive :=
  let new_file_id := a.files.length
  (new_file_id,
   { a with files := a.files ++ [[]], filenames := a.filenames ++ [filename] })

/-- `PlzArchive.remove_file` (src/formats/filesystem.py:562-567): silently
returns when the name is absent, otherwise pops both lists at the name's first
index. -/
def PlzArchive.remove_file (a : PlzArchive) (filename : List Nat) : PlzArchive :=
  match idxOf? a.filenames filename with
  | none => a
  | some index =>
    { a with files := a.files.eraseIdx index, filenames := a.filenames.eraseIdx index }

/-- `PlzArchive.rename_file` (src/formats/filesystem.py:569-573). -/
def PlzArchive.rename_file (a : PlzArchive) (old_filename new_filename : List Nat) :
    PlzArchive :=
  match idxOf? a.filenames old_filename with
  | none => a
  | some index => { a with filenames := a.filenames.set index new_filename }

/-- The mode regex `^([rwa])(b?)(\x7b0,1\x7d\+?)$`-style parse of `open`
(src/formats/filesystem.py:210-219): returns (operation, binary?, create?);
`none` is the `ValueError` for an invalid mode, raised before any state
change. -/
def parseMode (mode : String) : Option (Char × Bool × Bool) :=
  match mode.data with
  | [ch] => if ch = 'r' ∨ ch = 'w' ∨ ch = 'a' then some (ch, false, false) else none
  | [ch, 'b'] => if ch = 'r' ∨ ch = 'w' ∨ ch = 'a' then some (ch, true, false) else none
  | [ch, '+'] => if ch = 'r' ∨ ch = 'w' ∨ ch = 'a' then some (ch, false, true) else none
  | [ch, 'b', '+'] => if ch = 'r' ∨ ch = 'w' ∨ ch = 'a' then some (ch, true, true) else none
  | _ => none

/-- The `file` argument of `open`: Python dispatches on
`isinstance(file, int)`. -/
inductive FileArg where
  | byId : Nat → FileArg
  | byPath : String → FileArg

/-- `file` argument for `PlzArchive.open` (names are byte lists there). -/
inductive PlzFileArg where
  | byId : Nat → PlzFileArg
  | byName : List Nat → PlzFileArg

/-- The exceptions `open` can raise: `ValueError` (bad mode),
`FileNotFoundError`, `KeyError` (folder lookup in `add_file`),
`AttributeError` (`filenameOf` returned `None` and `.lower()` is called on
it), `IndexError` (slot access out of range). -/
inductive OpenError where
  | invalidMode
  | notFound
  | keyError
  | attrError
  | indexError

/-- `RomFile.__init__` for a `PlzArchive` owner
(src/formats/filesystem.py:69-79): the handle registers itself in
`opened_files` first (a fresh object is never `in` the identity-based list, so
the guarded append always appends), then the buffer is initialised from
`files[index]` for 'r'/'a' (an out-of-range index raises `IndexError` after
the registration; that handle is modelled with an empty buffer). -/
def PlzArchive.mkRomFile (a : PlzArchive) (index : Nat) (op : Char) :
    Except OpenError RomFile × PlzArchive :=
  if op = 'r' ∨ op = 'a' then
    match a.files.get? index with
    | some content =>
      let h : RomFile := ⟨index, op, content⟩
      (.ok h, { a with opened_files := a.opened_files ++ [h] })
    | none =>
      (.error .indexError, { a with opened_files := a.opened_files ++ [⟨index, op, []⟩] })
  else
    let h : RomFile := ⟨index, op, []⟩
    (.ok h, { a with opened_files := a.opened_files ++ [h] })

/-- `PlzArchive.open` (src/formats/filesystem.py:524-553).  An `int` argument
is used directly as the id; a name is resolved by `filenames.index`; when
unresolved and create ('+') was requested, `add_file` is called, and the
falsy test `if not fileid:` then treats a newly returned id 0 as a failure.
The text-mode `TextIOWrapper` is dropped; the handle itself is returned. -/
def PlzArchive.open (a : PlzArchive) (file : PlzFileArg) (mode : String) :
    Except OpenError RomFile × PlzArchive :=
  match parseMode mode with
  | none => (.error .invalidMode, a)
  | some (op, _, create) =>
    match file with
    | .byId fid => a.mkRomFile fid op
    | .byName nm =>
      match idxOf? a.filenames nm with
      | some fid => a.mkRomFile fid op
      | none =>
        if create then
          let p := a.add_file nm
          if p.1 = 0 then (.error .notFound, p.2)
          else p.2.mkRomFile p.1 op
        else (.error .notFound, a)

/-! ### The folder table (ndspy.fnt)

`ndspy` is the external collaborator of spec §6 ("ordered sequence of byte
Slots + FolderTree with path resolution").  `Folder` and `FolderList` are a
mutual rendering of its `Folder(firstID, files, folders)` nodes; the path
operations below are modelled from the spec's description of that capability. -/

mutual
inductive Folder where
  | mk : Nat → List String → FolderList → Folder
inductive FolderList where
  | nil : FolderList
  | cons : String → Folder → FolderList → FolderList
end

def Folder.firstID : Folder → Nat
  | .mk f _ _ => f

def Folder.files : Folder → List String
  | .mk _ fs _ => fs

def Folder.folders : Folder → FolderList
  | .mk _ _ fl => fl

/-- Splits a list of characters at every separator, keeping empty pieces
(Python `str.split(sep)`). -/
def splitChars (sep : Char) : List Char → List (List Char)
  | [] => [[]]
  | ch :: rest =>
    let r := splitChars sep rest
    if ch = sep then [] :: r
    else
      match r with
      | g :: gs => (ch :: g) :: gs
      | [] => [[ch]]

/-- Python `path.split('/')`: every piece, empties kept. -/
def splitAll (s : String) : List String :=
  (splitChars '/' s.data).map (fun cs => String.mk cs)

/-- `os.path.split` for POSIX paths: split at the final '/', then strip the
trailing slashes from the head unless the head is all slashes. -/
def osPathSplit (p : String) : String × String :=
  let rev := p.data.reverse
  let revTail := rev.takeWhile (fun ch => ch ≠ '/')
  let revHead := rev.dropWhile (fun ch => ch ≠ '/')
  let head :=
    if revHead = [] ∨ revHead.all (fun ch => ch = '/') then revHead.reverse
    else (revHead.dropWhile (fun ch => ch = '/')).reverse
  (String.mk head, String.mk revTail.reverse)

def findFolder : FolderList → String → Option Folder
  | .nil, _ => none
  | .cons n f rest, s => if n = s then some f else findFolder rest s

/-- Modelled from the spec: ndspy `Folder.__getitem__` descending a
slash-separated folder path segment by segment (first name match); `none` is
its `KeyError`. -/
def Folder.getFolder : Folder → List String → Option Folder
  | f, [] => some f
  | f, s :: rest =>
    match findFolder f.folders s with
    | some sub => sub.getFolder rest
    | none => none

def firstIdxStr : List String → String → Option Nat
  | [], _ => none
  | x :: xs, s => if x = s then some 0 else (firstIdxStr xs s).map (· + 1)

/-- Modelled from the spec: ndspy `Folder.idOf` — resolve the leading segments
to a folder, then `firstID + index of the name in its file list`. -/
def Folder.idOfPath (f : Folder) (p : String) : Option Nat :=
  let segs := splitAll p
  match f.getFolder segs.dropLast, segs.getLast? with
  | some fl, some nm => (firstIdxStr fl.files nm).map (fl.firstID + ·)
  | _, _ => none

def fileWithId : List String → Nat → Nat → Option String
  | [], _, _ => none
  | nm :: rest, cur, target =>
    if cur = target then some nm else fileWithId rest (cur + 1) target

mutual
/-- Modelled from the spec: ndspy `Folder.filenameOf` resolves a slot id back
to a path by searching the tree; `none` when no file carries the id. -/
def Folder.filenameOf : Folder → String → Nat → Option String
  | .mk fid fls fds, pre, target =>
    match fileWithId fls fid target with
    | some nm => some (pre ++ nm)
    | none => FolderList.filenameOf fds pre target
def FolderList.filenameOf : FolderList → String → Nat → Option String
  | .nil, _, _ => none
  | .cons n f rest, pre, target =>
    match f.filenameOf (pre ++ n ++ "/") target with
    | some s => some s
    | none => FolderList.filenameOf rest pre target
end

mutual
/-- All slot ids reachable in a subtree: each folder owns
`firstID + i` for the `i`-th of its files, plus its children's ids
(spec §3: a file's id is its folder's `firstID` plus its position). -/
def Folder.subtreeIDs : Folder → List Nat
  | .mk fid fls fds => (List.range fls.length).map (fid + ·) ++ FolderList.subtreeIDs fds
def FolderList.subtreeIDs : FolderList → List Nat
  | .nil => []
  | .cons _ f rest => f.subtreeIDs ++ FolderList.subtreeIDs rest
end

/-- One step along an optional relative path. -/
def descend : Option (List String) → Option (String × List String)
  | some (s :: rest) => some (s, rest)
  | _ => none

mutual
/-- `folder_add.files.append(filename)` (src/formats/filesystem.py:251):
Python mutates the node object resolved from the folder path; object identity
is rendered as path identity, appending at the node the path reaches. -/
def Folder.appendAt : Folder → Option (List String) → String → Folder
  | .mk fid fls fds, tp, nm =>
    .mk fid (if tp = some [] then fls ++ [nm] else fls)
      (FolderList.appendAt fds (descend tp) nm)
def FolderList.appendAt : FolderList → Option (String × List String) → String → FolderList
  | .nil, _, _ => .nil
  | .cons n f rest, tp, nm =>
    match tp with
    | some (s, p) =>
      if n = s then .cons n (f.appendAt (some p) nm) (FolderList.appendAt rest none nm)
      else .cons n (f.appendAt none nm) (FolderList.appendAt rest tp nm)
    | none => .cons n (f.appendAt none nm) (FolderList.appendAt rest none nm)
end

mutual
/-- `increment_first_index_if_needed` (src/formats/filesystem.py:254-261):
every folder with `firstID >= new_id` other than the target (`root !=
folder_add`, rendered as: not the node at the target path) is incremented;
the walk recurses into every child. -/
def Folder.incCascade : Folder → Nat → Option (List String) → Folder
  | .mk fid fls fds, new_id, tp =>
    .mk (if new_id ≤ fid ∧ tp ≠ some [] then fid + 1 else fid) fls
      (FolderList.incCascade fds new_id (descend tp))
def FolderList.incCascade : FolderList → Nat → Option (String × List String) → FolderList
  | .nil, _, _ => .nil
  | .cons n f rest, new_id, tp =>
    match tp with
    | some (s, p) =>
      if n = s then
        .cons n (f.incCascade new_id (some p)) (FolderList.incCascade rest new_id none)
      else .cons n (f.incCascade new_id none) (FolderList.incCascade rest new_id tp)
    | none => .cons n (f.incCascade new_id none) (FolderList.incCascade rest new_id none)
end

mutual
/-- `decrement_first_index_if_needed` (src/formats/filesystem.py:280-287):
every folder with `firstID > removed_id` is decremented, no exclusions. -/
def Folder.decCascade : Folder → Nat → Folder
  | .mk fid fls fds, removed_id =>
    .mk (if removed_id < fid then fid - 1 else fid) fls
      (FolderList.decCascade fds removed_id)
def FolderList.decCascade : FolderList → Nat → FolderList
  | .nil, _ => .nil
  | .cons n f rest, removed_id =>
    .cons n (f.decCascade removed_id) (FolderList.decCascade rest removed_id)
end

def removeFirstStr : List String → String → List String
  | [], _ => []
  | x :: xs, s => if x = s then xs else x :: removeFirstStr xs s

mutual
/-- `folder.files.remove(filename)` (src/formats/filesystem.py:277) at the
node the folder path reaches. -/
def Folder.removeFileAt : Folder → Option (List String) → String → Folder
  | .mk fid fls fds, tp, nm =>
    .mk fid (if tp = some [] then removeFirstStr fls nm else fls)
      (FolderList.removeFileAt fds (descend tp) nm)
def FolderList.removeFileAt : FolderList → Option (String × List String) → String → FolderList
  | .nil, _, _ => .nil
  | .cons n f rest, tp, nm =>
    match tp with
    | some (s, p) =>
      if n = s then .cons n (f.removeFileAt (some p) nm) (FolderList.removeFileAt rest none nm)
      else .cons n (f.removeFileAt none nm) (FolderList.removeFileAt rest tp nm)
    | none => .cons n (f.removeFileAt none nm) (FolderList.removeFileAt rest none nm)
end

/-- `NintendoDSRom` state (src/formats/filesystem.py:148-162): the flat slot
list, the folder table, the registry `opened_files` the `RomFile` handles
register themselves in (an `Archive`-level attribute), the separate
`_opened_files` list `__init__` creates and the add/remove cascades iterate
(nothing in the program ever appends to it), and the archive cache
`_loaded_archives`. -/
structure NintendoDSRom where
  files : List (List Nat)
  filenames : Folder
  opened_files : List RomFile
  _opened_files : List RomFile
  _loaded_archives : List (String × PlzArchive)

/-- The handle pass of `add_file` (src/formats/filesystem.py:263-269) over
`self._opened_files`: ids above the new id are incremented, and a handle whose
id equals the new id is force-closed (close = flush the buffer into the slot
for non-read modes, then remove the handle from `opened_files`).  Python
mutates shared handle objects; the pass here returns the updated
`_opened_files` list together with the slot list and the registry (on every
state the program builds `_opened_files` is empty, so the pass is the
identity there, aliasing between the two lists never manifesting). -/
def cascadeAddHandles (new_id : Nat) :
    List RomFile → List (List Nat) → List RomFile →
    List RomFile × List (List Nat) × List RomFile
  | [], files, opened => ([], files, opened)
  | fp :: rest, files, opened =>
    let fp' := if new_id < fp.id then { fp with id := fp.id + 1 } else fp
    let st :=
      if fp'.id = new_id then
        (if fp'.opp ≠ 'r' then files.set fp'.id fp'.buffer else files, opened.erase fp')
      else (files, opened)
    let r := cascadeAddHandles new_id rest st.1 st.2
    (fp' :: r.1, r.2)

/-- The handle pass of `remove_file` (src/formats/filesystem.py:288-293):
ids above the removed id are decremented first, then any handle whose id now
equals the removed id is force-closed (so a handle one past the removed slot
is decremented and then closed — the sequential `if`s of the source). -/
def cascadeRemoveHandles (fileid : Nat) :
    List RomFile → List (List Nat) → List RomFile →
    List RomFile × List (List Nat) × List RomFile
  | [], files, opened => ([], files, opened)
  | fp :: rest, files, opened =>
    let fp' := if fileid < fp.id then { fp with id := fp.id - 1 } else fp
    let st :=
      if fp'.id = fileid then
        (if fp'.opp ≠ 'r' then files.set fp'.id fp'.buffer else files, opened.erase fp')
      else (files, opened)
    let r := cascadeRemoveHandles fileid rest st.1 st.2
    (fp' :: r.1, r.2)

/-- `NintendoDSRom.add_file` (src/formats/filesystem.py:242-271): split the
path, resolve the folder (`KeyError` → `none`, no state change), compute
`new_file_id = folder.firstID + len(folder.files)`, insert an empty slot
there (Python `list.insert` clamps past-the-end indices to an append, as
`take/drop` do), append the name to the folder, run the `firstID` cascade
skipping the target folder, then the handle pass over `_opened_files`. -/
def NintendoDSRom.add_file (rom : NintendoDSRom) (file : String) :
    Option Nat × NintendoDSRom :=
  let sp := osPathSplit file
  let folder_name := sp.1
  let filename := sp.2
  match rom.filenames.getFolder (splitAll folder_name) with
  | none => (none, rom)
  | some folder_add =>
    let new_file_id := folder_add.firstID + folder_add.files.length
    let files1 := rom.files.take new_file_id ++ [[]] ++ rom.files.drop new_file_id
    let fnt1 := rom.filenames.appendAt (some (splitAll folder_name)) filename
    let fnt2 := fnt1.incCascade new_file_id (some (splitAll folder_name))
    let r := cascadeAddHandles new_file_id rom._opened_files files1 rom.opened_files
    (some new_file_id,
     { rom with files := r.2.1, filenames := fnt2, opened_files := r.2.2,
                _opened_files := r.1 })

/-- `NintendoDSRom.remove_file` (src/formats/filesystem.py:273-293): resolve
the folder and the file id, remove the name's first occurrence from the
folder, delete the slot, run the decrement cascade, then the handle pass.
A failed folder lookup (`KeyError`) or an absent name (`ValueError` from
`list.remove`) raises before any mutation, so those paths leave the state
unchanged; an id lookup cannot fail once the name is present, the two walks
resolving the same path the same way. -/
def NintendoDSRom.remove_file (rom : NintendoDSRom) (file : String) : NintendoDSRom :=
  let sp := osPathSplit file
  let folder_name := sp.1
  let filename := sp.2
  match rom.filenames.getFolder (splitAll folder_name), rom.filenames.idOfPath file with
  | some folder, some fileid =>
    if filename ∈ folder.files then
      let fnt1 := rom.filenames.removeFileAt (some (splitAll folder_name)) filename
      let files1 := rom.files.eraseIdx fileid
      let fnt2 := fnt1.decCascade fileid
      let r := cascadeRemoveHandles fileid rom._opened_files files1 rom.opened_files
      { rom with files := r.2.1, filenames := fnt2, opened_files := r.2.2,
                 _opened_files := r.1 }
    else rom
  | _, _ => rom

/-- `RomFile.__init__` for a rom owner (src/formats/filesystem.py:69-79):
register the handle in `opened_files` (the guarded append always appends — a
fresh object is never `in` the identity-based list), then initialise the
buffer from `files[index]` for 'r'/'a' ('w' starts empty); an out-of-range
index raises `IndexError` after the registration. -/
def NintendoDSRom.mkRomFile (rom : NintendoDSRom) (index : Nat) (op : Char) :
    Except OpenError RomFile × NintendoDSRom :=
  if op = 'r' ∨ op = 'a' then
    match rom.files.get? index with
    | some content =>
      let h : RomFile := ⟨index, op, content⟩
      (.ok h, { rom with opened_files := rom.opened_files ++ [h] })
    | none =>
      (.error .indexError,
       { rom with opened_files := rom.opened_files ++ [⟨index, op, []⟩] })
  else
    let h : RomFile := ⟨index, op, []⟩
    (.ok h, { rom with opened_files := rom.opened_files ++ [h] })

/-- `NintendoDSRom.open` (src/formats/filesystem.py:193-240).  An `int`
argument is used directly as the id after `filenames.filenameOf` is consulted
(a `None` result makes the later `file.lower()` raise `AttributeError`); a
path is resolved via `filenames.idOf`, and the falsy test `if not fileid`
treats both `None` and id 0 as unresolved: with create ('+') requested,
`add_file` runs (even for an existing file at id 0), and a newly created id 0
is then reported as `FileNotFoundError` although the slot was already
inserted.  The `.plz` check only logs; the text-mode wrapper is dropped. -/
def NintendoDSRom.open (rom : NintendoDSRom) (file : FileArg) (mode : String) :
    Except OpenError RomFile × NintendoDSRom :=
  match parseMode mode with
  | none => (.error .invalidMode, rom)
  | some (op, _, create) =>
    match file with
    | .byId fid =>
      match rom.filenames.filenameOf "" fid with
      | none => (.error .attrError, rom)
      | some _ => rom.mkRomFile fid op
    | .byPath p =>
      let fileid := rom.filenames.idOfPath p
      if (fileid = none ∨ fileid = some 0) ∧ create then
        match rom.add_file p with
        | (none, rom') => (.error .keyError, rom')
        | (some nid, rom') =>
          if nid = 0 then (.error .notFound, rom') else rom'.mkRomFile nid op
      else
        match fileid with
        | none => (.error .notFound, rom)
        | some 0 => (.error .notFound, rom)
        | some (n + 1) => rom.mkRomFile (n + 1) op

/-- `RomFile.close` for a rom handle (src/formats/filesystem.py:84-97): flush
(non-read handles write their buffer back into their slot) and deregister
from `opened_files` (`list.remove`: first structurally-equal entry). -/
def NintendoDSRom.closeRomFile (rom : NintendoDSRom) (h : RomFile) : NintendoDSRom :=
  { rom with
    files := if h.opp ≠ 'r' then rom.files.set h.id h.buffer else rom.files,
    opened_files := rom.opened_files.erase h }

/-- Python `dict` lookup on `_loaded_archives` (first and only binding per
key). -/
def lookupA : List (String × PlzArchive) → String → Option PlzArchive
  | [], _ => none
  | kv :: rest, p => if kv.1 = p then some kv.2 else lookupA rest p

/-- Modelled from the spec: constructing `PlzArchive(path, rom=self)` runs
`FileFormat.__init__` (src/formats/filesystem.py:393-412): the slot is opened
with mode "rb", its bytes pass through the compression codec (whose code is
outside src/; the spec treats its byte layout as out of scope, so it is
modelled as the identity), `read_stream` decodes a fresh archive object, and
the rom file is closed.  A failed open or decode propagates (`none`; the
handle of a failed decode stays open because the exception skips
`file.close()`). -/
def NintendoDSRom.mk_archive (rom : NintendoDSRom) (path : String) :
    Option PlzArchive × NintendoDSRom :=
  match rom.open (.byPath path) "rb" with
  | (.error _, rom') => (none, rom')
  | (.ok h, rom') =>
    match PlzArchive.read_stream ⟨[], [], []⟩ h.buffer with
    | .ok a => (some a, rom'.closeRomFile h)
    | .error _ => (none, rom')

/-- `NintendoDSRom.get_archive` (src/formats/filesystem.py:164-182): return
the cached archive for the path, constructing and caching it on first
access; a construction failure propagates and caches nothing. -/
def NintendoDSRom.get_archive (rom : NintendoDSRom) (path : String) :
    Option PlzArchive × NintendoDSRom :=
  match lookupA rom._loaded_archives path with
  | some a => (some a, rom)
  | none =>
    match rom.mk_archive path with
    | (some a, rom') =>
      (some a, { rom' with _loaded_archives := rom'._loaded_archives ++ [(path, a)] })
    | (none, rom') => (none, rom')

/-! ### Byte-level structure of the encoder -/

/-- The bytes one record loop iteration leaves in the stream: the four `u32`
fields, the zero-terminated name, zero padding up to `record_header_size`,
the payload, zero padding up to `record_total_size`. -/
def encodeRecord (name payload : List Nat) : List Nat :=
  toU32 (record_header_size name) ++ toU32 (record_total_size name payload) ++
    toU32 0 ++ toU32 payload.length ++ name ++ [0] ++
    List.replicate (record_header_size name - (17 + name.length)) 0 ++ payload ++
    List.replicate (record_total_size name payload -
      (record_header_size name + payload.length)) 0

/-- Concatenation of the records' bytes. -/
def concatRecords : List (List Nat × List Nat) → List Nat
  | [] => []
  | r :: rs => encodeRecord r.1 r.2 ++ concatRecords rs

theorem record_header_size_bounds (name : List Nat) :
    17 + name.length < record_header_size name ∧
      record_header_size name ≤ 21 + name.length := by
  simp only [record_header_size]
  omega

theorem record_total_size_bounds (name payload : List Nat) :
    record_header_size name + payload.length < record_total_size name payload ∧
      record_total_size name payload ≤ record_header_size name + payload.length + 4 := by
  simp only [record_total_size]
  omega

theorem encodeRecord_length (name payload : List Nat) :
    (encodeRecord name payload).length = record_total_size name payload := by
  have h1 := record_header_size_bounds name
  have h2 := record_total_size_bounds name payload
  simp only [encodeRecord, List.length_append, List.length_replicate, toU32,
    List.length_cons, List.length_nil, List.length_singleton]
  omega

theorem concatRecords_length (rs : List (List Nat × List Nat)) :
    (concatRecords rs).length =
      (rs.map (fun r => record_total_size r.1 r.2)).sum := by
  induction rs with
  | nil => rfl
  | cons r rs ih =>
    simp [concatRecords, encodeRecord_length, ih]

theorem drop_append_len {α : Type} (l₁ l₂ : List α) (k : Nat) :
    (l₁ ++ l₂).drop (l₁.length + k) = l₂.drop k := by
  induction l₁ with
  | nil => simp
  | cons x xs ih => simp only [List.cons_append, List.length_cons, Nat.succ_add,
      List.drop_succ_cons, ih]

theorem take_append_of_le {α : Type} (l₁ l₂ : List α) (k : Nat) (h : k ≤ l₁.length) :
    (l₁ ++ l₂).take k = l₁.take k := by
  induction l₁ generalizing k with
  | nil =>
    have : k = 0 := by simpa using h
    simp [this]
  | cons x xs ih =>
    cases k with
    | zero => simp
    | succ m => simp [ih m (by simpa using h)]

theorem write_past (d : List Nat) (c : Nat) (h : d.length ≤ c) (bs : List Nat) :
    BinaryWriter.write ⟨d, c⟩ bs =
      ⟨d ++ List.replicate (c - d.length) 0 ++ bs, c + bs.length⟩ := by
  simp only [BinaryWriter.write]
  congr 1
  have h1 : (d ++ List.replicate (c - d.length) 0).take c
      = d ++ List.replicate (c - d.length) 0 :=
    List.take_of_length_le (by simp; omega)
  have h2 : (d ++ List.replicate (c - d.length) 0).drop (c + bs.length) = [] :=
    List.drop_eq_nil_of_le (by simp; omega)
  rw [h1, h2]
  simp

theorem write_append (d : List Nat) (bs : List Nat) :
    BinaryWriter.write ⟨d, d.length⟩ bs = ⟨d ++ bs, d.length + bs.length⟩ := by
  rw [write_past d d.length (le_refl _) bs]
  simp

theorem write_inside (d : List Nat) (c : Nat) (bs : List Nat)
    (h : c ≤ d.length) :
    BinaryWriter.write ⟨d, c⟩ bs =
      ⟨d.take c ++ bs ++ d.drop (c + bs.length), c + bs.length⟩ := by
  simp only [BinaryWriter.write]
  rw [Nat.sub_eq_zero_of_le h]
  simp

theorem write_u32_at_end (d : List Nat) (v : Nat) :
    BinaryWriter.write_uint32 ⟨d, d.length⟩ v = ⟨d ++ toU32 v, (d ++ toU32 v).length⟩ := by
  rw [BinaryWriter.write_uint32, write_append]
  simp [toU32]

theorem write_string_at_end (d : List Nat) (s : List Nat) :
    BinaryWriter.write_string ⟨d, d.length⟩ s
      = ⟨d ++ (s ++ [0]), (d ++ (s ++ [0])).length⟩ := by
  rw [BinaryWriter.write_string, write_append]
  simp

theorem padZeros_append (d : List Nat) (n : Nat) :
    BinaryWriter.padZeros ⟨d, d.length⟩ n =
      ⟨d ++ List.replicate n 0, d.length + n⟩ := by
  induction n generalizing d with
  | zero => simp [BinaryWriter.padZeros]
  | succ k ih =>
    rw [BinaryWriter.padZeros, write_append]
    simp only [List.length_singleton]
    have := ih (d ++ [0])
    simp only [List.length_append, List.length_singleton] at this
    rw [this]
    simp only [BinaryWriter.mk.injEq]
    constructor
    · simp [List.replicate_succ]
    · omega

theorem writeRecords_step (nm pl : List Nat) (rest : List (List Nat × List Nat))
    (d : List Nat) :
    writeRecords ((nm, pl) :: rest) ⟨d, d.length⟩
      = writeRecords rest
          ⟨d ++ encodeRecord nm pl, (d ++ encodeRecord nm pl).length⟩ := by
  have hhs := record_header_size_bounds nm
  have hts := record_total_size_bounds nm pl
  simp only [writeRecords]
  congr 1
  dsimp only
  rw [write_u32_at_end, write_u32_at_end, write_u32_at_end, write_u32_at_end,
    write_string_at_end]
  dsimp only [BinaryWriter.seek]
  set D5 := d ++ toU32 (record_header_size nm) ++ toU32 (record_total_size nm pl)
      ++ toU32 0 ++ toU32 pl.length ++ (nm ++ [0]) with hD5
  have hD5len : D5.length = d.length + (17 + nm.length) := by
    simp [hD5, toU32]
    omega
  rw [write_past D5 (d.length + record_header_size nm) (by omega) pl]
  dsimp only
  have hgap1 : d.length + record_header_size nm - D5.length
      = record_header_size nm - (17 + nm.length) := by omega
  rw [hgap1]
  set D7 := D5 ++ List.replicate (record_header_size nm - (17 + nm.length)) 0 ++ pl
    with hD7
  have hD7len : D7.length = d.length + record_header_size nm + pl.length := by
    simp [hD7, hD5len]
    omega
  have hmk : (⟨D7, d.length + record_header_size nm + pl.length⟩ : BinaryWriter)
      = ⟨D7, D7.length⟩ := by rw [hD7len]
  rw [hmk, padZeros_append]
  have hA : d.length + record_total_size nm pl
        - (d.length + record_header_size nm + pl.length)
      = record_total_size nm pl - (record_header_size nm + pl.length) := by omega
  rw [hA]
  simp only [BinaryWriter.mk.injEq]
  constructor
  · simp only [hD7, hD5, encodeRecord, List.append_assoc]
  · simp only [hD7len, List.length_append, encodeRecord_length]
    omega

theorem writeRecords_data (rs : List (List Nat × List Nat)) (d : List Nat) :
    writeRecords rs ⟨d, d.length⟩
      = ⟨d ++ concatRecords rs, (d ++ concatRecords rs).length⟩ := by
  induction rs generalizing d with
  | nil => simp [writeRecords, concatRecords]
  | cons r rest ih =>
    obtain ⟨nm, pl⟩ := r
    rw [writeRecords_step, ih]
    simp [concatRecords, List.append_assoc]

theorem write_raw_at_end (d : List Nat) (bs : List Nat) :
    BinaryWriter.write ⟨d, d.length⟩ bs = ⟨d ++ bs, (d ++ bs).length⟩ := by
  rw [write_append]
  simp

theorem write_u32_patch4 (d : List Nat) (v : Nat) (h : 4 ≤ d.length) :
    BinaryWriter.write_uint32 ⟨d, 4⟩ v = ⟨d.take 4 ++ toU32 v ++ d.drop 8, 8⟩ := by
  rw [BinaryWriter.write_uint32, write_inside d 4 (toU32 v) h]
  norm_num [toU32]

/-- The full byte stream the encoder produces: the 16-byte header with the
patched total length, then the record bytes. -/
theorem write_stream_eq (a : PlzArchive) :
    a.write_stream
      = toU32 16 ++ toU32 (16 + (concatRecords (a.filenames.zip a.files)).length)
          ++ pck2 ++ toU32 0 ++ concatRecords (a.filenames.zip a.files) := by
  simp only [PlzArchive.write_stream]
  have h0 : (⟨[], 0⟩ : BinaryWriter) = ⟨[], ([] : List Nat).length⟩ := rfl
  rw [h0, write_u32_at_end, write_u32_at_end, write_raw_at_end, write_u32_at_end,
    writeRecords_data]
  dsimp only [BinaryWriter.seek]
  set R := concatRecords (a.filenames.zip a.files) with hR
  set H := [] ++ toU32 16 ++ toU32 0 ++ pck2 ++ toU32 0 with hH
  have hHlen : H.length = 16 := by rw [hH]; rfl
  have hlen : (H ++ R).length = 16 + R.length := by
    simp [List.length_append, hHlen]
  rw [write_u32_patch4 (H ++ R) ((H ++ R).length) (by omega)]
  dsimp only
  have htake : (H ++ R).take 4 = toU32 16 := by
    rw [take_append_of_le _ _ _ (by omega)]
    rw [hH]; rfl
  have hdrop : (H ++ R).drop 8 = pck2 ++ toU32 0 ++ R := by
    rw [List.drop_append_eq_append_drop]
    rw [hHlen]
    have h8 : H.drop 8 = pck2 ++ toU32 0 := by rw [hH]; rfl
    rw [h8]
    simp
  rw [htake, hdrop, hlen]
  simp [List.append_assoc]

/-! ### Decoding the encoder's bytes -/

theorem toU32_fromLE (v : Nat) (h : v < 4294967296) : fromLEBytes (toU32 v) = v := by
  simp only [toU32, fromLEBytes]
  omega

theorem take4_u32 (v : Nat) (rest : List Nat) : (toU32 v ++ rest).take 4 = toU32 v := by
  have h4 : (toU32 v).length = 4 := rfl
  rw [← h4, List.take_left]

theorem drop4_u32 (v : Nat) (rest : List Nat) : (toU32 v ++ rest).drop 4 = rest := by
  have h4 : (toU32 v).length = 4 := rfl
  rw [← h4, List.drop_left]

theorem drop_u32_chunk (v : Nat) (rest : List Nat) (k : Nat) :
    (toU32 v ++ rest).drop (4 + k) = rest.drop k := by
  have h4 : (toU32 v).length = 4 := rfl
  rw [← h4, drop_append_len]

theorem takeWhile_name (nm rest : List Nat) (h : ∀ b ∈ nm, b ≠ 0) :
    (nm ++ 0 :: rest).takeWhile (fun b => b ≠ 0) = nm := by
  induction nm with
  | nil => simp
  | cons a l ih =>
    have ha : a ≠ 0 := h a (by simp)
    rw [List.cons_append, List.takeWhile_cons_of_pos (by simp [ha]),
      ih (fun b hb => h b (by simp [hb]))]

theorem readRecords_step (nm pl tail pre : List Nat) (ns fs : List (List Nat))
    (afs f : Nat)
    (hnm : ∀ b ∈ nm, b ≠ 0)
    (hts32 : record_total_size nm pl < 4294967296)
    (hlt : pre.length < afs) :
    readRecords ⟨pre ++ (encodeRecord nm pl ++ tail), pre.length⟩ afs ns fs (f + 1)
      = readRecords
          ⟨pre ++ (encodeRecord nm pl ++ tail), pre.length + record_total_size nm pl⟩
          afs (ns ++ [nm]) (fs ++ [pl]) f := by
  have hhs := record_header_size_bounds nm
  have hts := record_total_size_bounds nm pl
  have hhs32 : record_header_size nm < 4294967296 := by omega
  have hpl32 : pl.length < 4294967296 := by omega
  set g1 := record_header_size nm - (17 + nm.length) with hg1
  set g2 := record_total_size nm pl - (record_header_size nm + pl.length) with hg2
  have hX : encodeRecord nm pl ++ tail
      = toU32 (record_header_size nm) ++ (toU32 (record_total_size nm pl)
          ++ (toU32 0 ++ (toU32 pl.length ++ (nm ++ (0 ::
            (List.replicate g1 0 ++ (pl ++ (List.replicate g2 0 ++ tail)))))))) := by
    simp [encodeRecord, List.append_assoc]
  set D := pre ++ (encodeRecord nm pl ++ tail) with hD
  have e1 : fromLEBytes ((D.drop pre.length).take 4) = record_header_size nm := by
    rw [hD, List.drop_left, hX, take4_u32, toU32_fromLE _ hhs32]
  have e2 : fromLEBytes ((D.drop (pre.length + 4)).take 4)
      = record_total_size nm pl := by
    rw [hD, drop_append_len, hX, drop4_u32, take4_u32, toU32_fromLE _ hts32]
  have e3 : fromLEBytes ((D.drop (pre.length + 4 + 4 + 4)).take 4) = pl.length := by
    have h12 : pre.length + 4 + 4 + 4 = pre.length + 12 := by omega
    rw [h12, hD, drop_append_len, hX]
    rw [show (12 : Nat) = 4 + 8 from rfl, drop_u32_chunk,
      show (8 : Nat) = 4 + 4 from rfl, drop_u32_chunk, drop4_u32,
      take4_u32, toU32_fromLE _ hpl32]
  have e4 : (D.drop (pre.length + 4 + 4 + 4 + 4)).takeWhile (fun b => b ≠ 0) = nm := by
    have h16 : pre.length + 4 + 4 + 4 + 4 = pre.length + 16 := by omega
    rw [h16, hD, drop_append_len, hX]
    rw [show (16 : Nat) = 4 + 12 from rfl, drop_u32_chunk,
      show (12 : Nat) = 4 + 8 from rfl, drop_u32_chunk,
      show (8 : Nat) = 4 + 4 from rfl, drop_u32_chunk, drop4_u32]
    rw [show nm ++ (0 :: (List.replicate g1 0 ++ (pl ++ (List.replicate g2 0 ++ tail))))
        = nm ++ 0 :: (List.replicate g1 0 ++ (pl ++ (List.replicate g2 0 ++ tail)))
      from rfl]
    exact takeWhile_name _ _ hnm
  have hXP : encodeRecord nm pl ++ tail
      = (toU32 (record_header_size nm) ++ toU32 (record_total_size nm pl)
          ++ toU32 0 ++ toU32 pl.length ++ nm ++ [0] ++ List.replicate g1 0)
        ++ (pl ++ (List.replicate g2 0 ++ tail)) := by
    simp [encodeRecord, List.append_assoc]
  have hPlen : (toU32 (record_header_size nm) ++ toU32 (record_total_size nm pl)
      ++ toU32 0 ++ toU32 pl.length ++ nm ++ [0] ++ List.replicate g1 0).length
      = record_header_size nm := by
    simp [toU32]
    omega
  have e5 : (D.drop (pre.length + record_header_size nm)).take pl.length = pl := by
    rw [hD, drop_append_len, hXP]
    have hdl := List.drop_left
      (toU32 (record_header_size nm) ++ toU32 (record_total_size nm pl)
        ++ toU32 0 ++ toU32 pl.length ++ nm ++ [0] ++ List.replicate g1 0)
      (pl ++ (List.replicate g2 0 ++ tail))
    rw [hPlen] at hdl
    rw [hdl, take_append_of_le _ _ _ (le_refl _), List.take_length]
  simp only [readRecords]
  rw [if_pos hlt]
  dsimp only [BinaryReader.read_uint32, BinaryReader.read, BinaryReader.read_string,
    BinaryReader.seek]
  rw [e1, e2, e3, e4, e5]

theorem concatRecords_pos (nm pl : List Nat) (rest : List (List Nat × List Nat)) :
    0 < (concatRecords ((nm, pl) :: rest)).length := by
  have hhs := record_header_size_bounds nm
  have hts := record_total_size_bounds nm pl
  simp [concatRecords, encodeRecord_length]
  omega

theorem readRecords_concat (rs : List (List Nat × List Nat)) (pre : List Nat)
    (ns fs : List (List Nat)) (f : Nat)
    (hfuel : rs.length < f)
    (hok : ∀ r ∈ rs, (∀ b ∈ r.1, b ≠ 0) ∧ record_total_size r.1 r.2 < 4294967296) :
    readRecords ⟨pre ++ concatRecords rs, pre.length⟩
        (pre.length + (concatRecords rs).length) ns fs f
      = some (ns ++ rs.map Prod.fst, fs ++ rs.map Prod.snd) := by
  induction rs generalizing pre ns fs f with
  | nil =>
    cases f with
    | zero => omega
    | succ k => simp [readRecords, concatRecords]
  | cons r rest ih =>
    obtain ⟨nm, pl⟩ := r
    have hr := hok (nm, pl) (by simp)
    have hhs := record_header_size_bounds nm
    have hts := record_total_size_bounds nm pl
    cases f with
    | zero => omega
    | succ k =>
      have hcc : concatRecords ((nm, pl) :: rest)
          = encodeRecord nm pl ++ concatRecords rest := rfl
      rw [hcc]
      rw [readRecords_step nm pl (concatRecords rest) pre ns fs _ k hr.1 hr.2
        (by simp [encodeRecord_length]; omega)]
      have hD2 : pre ++ (encodeRecord nm pl ++ concatRecords rest)
          = (pre ++ encodeRecord nm pl) ++ concatRecords rest := by
        simp [List.append_assoc]
      have hc2 : pre.length + record_total_size nm pl
          = (pre ++ encodeRecord nm pl).length := by
        simp [encodeRecord_length]
      have hafs : pre.length + (encodeRecord nm pl ++ concatRecords rest).length
          = (pre ++ encodeRecord nm pl).length + (concatRecords rest).length := by
        simp [encodeRecord_length]
        omega
      rw [hD2, hc2, hafs]
      rw [ih (pre ++ encodeRecord nm pl) (ns ++ [nm]) (fs ++ [pl]) k
        (by simpa using Nat.lt_of_succ_lt_succ hfuel)
        (fun q hq => hok q (by simp [hq]))]
      simp

theorem concatRecords_le (rs : List (List Nat × List Nat)) :
    rs.length ≤ (concatRecords rs).length := by
  induction rs with
  | nil => simp [concatRecords]
  | cons r rest ih =>
    obtain ⟨nm, pl⟩ := r
    have hhs := record_header_size_bounds nm
    have hts := record_total_size_bounds nm pl
    simp [concatRecords, encodeRecord_length]
    omega

theorem mem_record_le (rs : List (List Nat × List Nat)) (r : List Nat × List Nat)
    (hr : r ∈ rs) : record_total_size r.1 r.2 ≤ (concatRecords rs).length := by
  induction rs with
  | nil => simp at hr
  | cons q rest ih =>
    rcases List.mem_cons.mp hr with h | h
    · subst h
      simp [concatRecords, encodeRecord_length]
    · have := ih h
      simp [concatRecords]
      omega

theorem write_stream_length (a : PlzArchive) :
    a.write_stream.length
      = 16 + (concatRecords (a.filenames.zip a.files)).length := by
  rw [write_stream_eq]
  simp [toU32, pck2]
  omega

/-- Round-trip: decoding a stream the encoder produced recovers the names and
payloads, for every archive whose names contain no zero byte (the terminator)
and whose encoding fits the `u32` size fields. -/
theorem read_write_roundtrip (a x : PlzArchive)
    (hnm : ∀ n ∈ a.filenames, ∀ b ∈ n, b ≠ 0)
    (hlen : a.filenames.length = a.files.length)
    (hsize : a.write_stream.length < 4294967296) :
    PlzArchive.read_stream x a.write_stream
      = .ok { x with filenames := a.filenames, files := a.files } := by
  have hwslen := write_stream_length a
  simp only [PlzArchive.read_stream]
  dsimp only [BinaryReader.read_uint32, BinaryReader.read, BinaryReader.seek]
  rw [write_stream_eq a]
  set R := concatRecords (a.filenames.zip a.files) with hR
  have hassoc : toU32 16 ++ toU32 (16 + R.length) ++ pck2 ++ toU32 0 ++ R
      = toU32 16 ++ (toU32 (16 + R.length) ++ (pck2 ++ (toU32 0 ++ R))) := by
    simp [List.append_assoc]
  have e1 : fromLEBytes
      (((toU32 16 ++ toU32 (16 + R.length) ++ pck2 ++ toU32 0 ++ R).drop 0).take 4)
      = 16 := by
    rw [List.drop_zero, hassoc, take4_u32]
    exact toU32_fromLE 16 (by norm_num)
  have e2 : fromLEBytes
      (((toU32 16 ++ toU32 (16 + R.length) ++ pck2 ++ toU32 0 ++ R).drop (0 + 4)).take 4)
      = 16 + R.length := by
    rw [show (0 + 4 : Nat) = 4 from rfl, hassoc, drop4_u32, take4_u32]
    exact toU32_fromLE _ (by omega)
  have e3 : ((toU32 16 ++ toU32 (16 + R.length) ++ pck2 ++ toU32 0 ++ R).drop
        (0 + 4 + 4)).take 4 = pck2 := by
    rw [show (0 + 4 + 4 : Nat) = 4 + 4 from rfl, hassoc, drop_u32_chunk, drop4_u32]
    have h4 : (pck2 : List Nat).length = 4 := rfl
    rw [← h4, List.take_left]
  rw [e1, e2, e3, if_pos rfl]
  have h16len : (toU32 16 ++ toU32 (16 + R.length) ++ pck2 ++ toU32 0).length = 16 := by
    simp [toU32, pck2]
  have hfuel : (a.filenames.zip a.files).length
      < (toU32 16 ++ toU32 (16 + R.length) ++ pck2 ++ toU32 0 ++ R).length + 1 := by
    have h1 := concatRecords_le (a.filenames.zip a.files)
    rw [← hR] at h1
    have h2 : (toU32 16 ++ toU32 (16 + R.length) ++ pck2 ++ toU32 0 ++ R).length
        = 16 + R.length := by
      simp [toU32, pck2]
      omega
    omega
  have hok : ∀ r ∈ a.filenames.zip a.files,
      (∀ b ∈ r.1, b ≠ 0) ∧ record_total_size r.1 r.2 < 4294967296 := by
    intro r hr
    refine ⟨fun b hb => hnm r.1 (List.of_mem_zip hr).1 b hb, ?_⟩
    have h1 := mem_record_le _ r hr
    rw [← hR] at h1
    omega
  have hmaster := readRecords_concat (a.filenames.zip a.files)
      (toU32 16 ++ toU32 (16 + R.length) ++ pck2 ++ toU32 0) [] []
      ((toU32 16 ++ toU32 (16 + R.length) ++ pck2 ++ toU32 0 ++ R).length + 1)
      hfuel hok
  rw [← hR] at hmaster
  rw [h16len] at hmaster
  rw [hmaster]
  simp only [List.nil_append]
  rw [List.map_fst_zip _ _ (le_of_eq hlen), List.map_snd_zip _ _ (le_of_eq hlen.symm)]

/-! ### Per-record field offsets of the encoder -/

/-- Byte offset, within the record area, of the `i`-th record's start: the sum
of the total sizes of the records before it. -/
def sizeUpTo : List (List Nat × List Nat) → Nat → Nat
  | _, 0 => 0
  | [], _ + 1 => 0
  | r :: rs, i + 1 => record_total_size r.1 r.2 + sizeUpTo rs i

theorem record_header_size_eq_next4 (nm : List Nat) :
    record_header_size nm = next4 (16 + nm.length + 1) := by
  simp only [record_header_size, next4]
  omega

theorem record_total_size_eq_next4 (nm pl : List Nat) :
    record_total_size nm pl = next4 (record_header_size nm + pl.length) := by
  simp only [record_total_size, next4]
  omega

theorem drop_concat_sizeUpTo (rs : List (List Nat × List Nat)) (i : Nat) :
    (concatRecords rs).drop (sizeUpTo rs i) = concatRecords (rs.drop i) := by
  induction rs generalizing i with
  | nil => cases i <;> simp [concatRecords, sizeUpTo]
  | cons r rest ih =>
    cases i with
    | zero => simp [sizeUpTo]
    | succ k =>
      have hl : (encodeRecord r.1 r.2).length = record_total_size r.1 r.2 :=
        encodeRecord_length _ _
      show (encodeRecord r.1 r.2 ++ concatRecords rest).drop
          (record_total_size r.1 r.2 + sizeUpTo rest k) = _
      rw [← hl, drop_append_len, ih]
      rfl

theorem u32At_record_fields (a : PlzArchive)
    (hsize : a.write_stream.length < 4294967296)
    (i : Nat) (hi : i < (a.filenames.zip a.files).length) :
    u32At a.write_stream (16 + sizeUpTo (a.filenames.zip a.files) i)
        = record_header_size ((a.filenames.zip a.files).getD i ([], [])).1
      ∧ u32At a.write_stream (16 + sizeUpTo (a.filenames.zip a.files) i + 4)
        = record_total_size ((a.filenames.zip a.files).getD i ([], [])).1
            ((a.filenames.zip a.files).getD i ([], [])).2 := by
  have hRlen := write_stream_length a
  have hget : (a.filenames.zip a.files).getD i ([], [])
      = (a.filenames.zip a.files)[i] := List.getD_eq_getElem _ _ hi
  have hmem : (a.filenames.zip a.files).getD i ([], []) ∈ a.filenames.zip a.files := by
    rw [hget]
    exact List.getElem_mem hi
  have hle := mem_record_le _ _ hmem
  have hts := record_total_size_bounds ((a.filenames.zip a.files).getD i ([], [])).1
    ((a.filenames.zip a.files).getD i ([], [])).2
  have hts32 : record_total_size ((a.filenames.zip a.files).getD i ([], [])).1
      ((a.filenames.zip a.files).getD i ([], [])).2 < 4294967296 := by omega
  have hhs32 : record_header_size ((a.filenames.zip a.files).getD i ([], [])).1
      < 4294967296 := by omega
  have hdropi : a.write_stream.drop (16 + sizeUpTo (a.filenames.zip a.files) i)
      = concatRecords ((a.filenames.zip a.files).drop i) := by
    rw [write_stream_eq]
    have h1 := drop_append_len
      (toU32 16 ++ toU32 (16 + (concatRecords (a.filenames.zip a.files)).length)
        ++ pck2 ++ toU32 0)
      (concatRecords (a.filenames.zip a.files))
      (sizeUpTo (a.filenames.zip a.files) i)
    have h2 : (toU32 16
        ++ toU32 (16 + (concatRecords (a.filenames.zip a.files)).length)
        ++ pck2 ++ toU32 0).length = 16 := by
      simp [toU32, pck2]
    rw [h2] at h1
    rw [h1, drop_concat_sizeUpTo]
  have hcons : (a.filenames.zip a.files).drop i
      = (a.filenames.zip a.files).getD i ([], [])
          :: (a.filenames.zip a.files).drop (i + 1) := by
    rw [hget]
    exact List.drop_eq_getElem_cons hi
  have hX : encodeRecord ((a.filenames.zip a.files).getD i ([], [])).1
        ((a.filenames.zip a.files).getD i ([], [])).2
      ++ concatRecords ((a.filenames.zip a.files).drop (i + 1))
      = toU32 (record_header_size ((a.filenames.zip a.files).getD i ([], [])).1)
        ++ (toU32 (record_total_size ((a.filenames.zip a.files).getD i ([], [])).1
              ((a.filenames.zip a.files).getD i ([], [])).2)
          ++ (toU32 0 ++ (toU32 ((a.filenames.zip a.files).getD i ([], [])).2.length
            ++ (((a.filenames.zip a.files).getD i ([], [])).1
              ++ ([0] ++ (List.replicate (record_header_size
                    ((a.filenames.zip a.files).getD i ([], [])).1
                  - (17 + ((a.filenames.zip a.files).getD i ([], [])).1.length)) 0
                ++ (((a.filenames.zip a.files).getD i ([], [])).2
                  ++ (List.replicate (record_total_size
                        ((a.filenames.zip a.files).getD i ([], [])).1
                        ((a.filenames.zip a.files).getD i ([], [])).2
                      - (record_header_size ((a.filenames.zip a.files).getD i ([], [])).1
                        + ((a.filenames.zip a.files).getD i ([], [])).2.length)) 0
                    ++ concatRecords ((a.filenames.zip a.files).drop (i + 1)))))))))) := by
    simp [encodeRecord, List.append_assoc]
  constructor
  · show fromLEBytes ((a.write_stream.drop
        (16 + sizeUpTo (a.filenames.zip a.files) i)).take 4) = _
    rw [hdropi, hcons]
    show fromLEBytes ((encodeRecord _ _ ++ concatRecords _).take 4) = _
    rw [hX, take4_u32, toU32_fromLE _ hhs32]
  · show fromLEBytes ((a.write_stream.drop
        (16 + sizeUpTo (a.filenames.zip a.files) i + 4)).take 4) = _
    have h4 : a.write_stream.drop (16 + sizeUpTo (a.filenames.zip a.files) i + 4)
        = (a.write_stream.drop (16 + sizeUpTo (a.filenames.zip a.files) i)).drop 4 := by
      rw [List.drop_drop]
    rw [h4, hdropi, hcons]
    show fromLEBytes (((encodeRecord _ _ ++ concatRecords _).drop 4).take 4) = _
    rw [hX, drop4_u32, take4_u32, toU32_fromLE _ hts32]

/-! ### Frame and cache lemmas for the rom operations -/

theorem mkRomFile_frame (rom : NintendoDSRom) (i : Nat) (op : Char) :
    (rom.mkRomFile i op).2.files = rom.files
      ∧ (rom.mkRomFile i op).2.filenames = rom.filenames
      ∧ (rom.mkRomFile i op).2._loaded_archives = rom._loaded_archives := by
  simp only [NintendoDSRom.mkRomFile]
  split
  · split <;> exact ⟨rfl, rfl, rfl⟩
  · exact ⟨rfl, rfl, rfl⟩

theorem plz_mkRomFile_frame (a : PlzArchive) (i : Nat) (op : Char) :
    (a.mkRomFile i op).2.files = a.files
      ∧ (a.mkRomFile i op).2.filenames = a.filenames := by
  simp only [PlzArchive.mkRomFile]
  split
  · split <;> exact ⟨rfl, rfl⟩
  · exact ⟨rfl, rfl⟩

theorem add_file_loaded (rom : NintendoDSRom) (f : String) :
    (rom.add_file f).2._loaded_archives = rom._loaded_archives := by
  simp only [NintendoDSRom.add_file]
  split <;> rfl

theorem open_loaded (rom : NintendoDSRom) (f : FileArg) (m : String) :
    (rom.open f m).2._loaded_archives = rom._loaded_archives := by
  cases f with
  | byId fid =>
    simp only [NintendoDSRom.open]
    cases hpm : parseMode m with
    | none => rfl
    | some t =>
      obtain ⟨op, bin, create⟩ := t
      dsimp only
      cases hfn : rom.filenames.filenameOf "" fid with
      | none => rfl
      | some nm => exact (mkRomFile_frame rom fid op).2.2
  | byPath p =>
    simp only [NintendoDSRom.open]
    cases hpm : parseMode m with
    | none => rfl
    | some t =>
      obtain ⟨op, bin, create⟩ := t
      dsimp only
      by_cases hcc : (rom.filenames.idOfPath p = none
          ∨ rom.filenames.idOfPath p = some 0) ∧ create = true
      · rw [if_pos hcc]
        rcases hadd : rom.add_file p with ⟨onid, rom1⟩
        have hal := add_file_loaded rom p
        rw [hadd] at hal
        cases onid with
        | none => exact hal
        | some nid =>
          dsimp only
          by_cases hz : nid = 0
          · rw [if_pos hz]
            exact hal
          · rw [if_neg hz]
            exact ((mkRomFile_frame rom1 nid op).2.2).trans hal
      · rw [if_neg hcc]
        cases hid : rom.filenames.idOfPath p with
        | none => rfl
        | some n =>
          cases n with
          | zero => rfl
          | succ k => exact (mkRomFile_frame rom (k + 1) op).2.2

theorem mk_archive_loaded (rom : NintendoDSRom) (p : String) :
    (rom.mk_archive p).2._loaded_archives = rom._loaded_archives := by
  simp only [NintendoDSRom.mk_archive]
  rcases ho : rom.open (.byPath p) "rb" with ⟨res, rom1⟩
  have hol := open_loaded rom (.byPath p) "rb"
  rw [ho] at hol
  cases res with
  | error e => exact hol
  | ok h =>
    dsimp only
    cases hr : PlzArchive.read_stream ⟨[], [], []⟩ h.buffer with
    | ok a2 => exact hol
    | error e2 => exact hol

theorem lookupA_append_self (l : List (String × PlzArchive)) (p : String)
    (a : PlzArchive) (h : lookupA l p = none) : lookupA (l ++ [(p, a)]) p = some a := by
  induction l with
  | nil => simp [lookupA]
  | cons kv rest ih =>
    by_cases hk : kv.1 = p
    · simp [lookupA, hk] at h
    · simp only [lookupA, hk] at h
      simp only [List.cons_append, lookupA, hk, if_neg]
      exact ih h

theorem get_archive_cached (s : NintendoDSRom) (p : String) (a : PlzArchive)
    (hc : lookupA s._loaded_archives p = some a) :
    s.get_archive p = (some a, s) := by
  simp only [NintendoDSRom.get_archive, hc]

theorem get_archive_caches (s : NintendoDSRom) (p : String) (a : PlzArchive)
    (s1 : NintendoDSRom) (h : s.get_archive p = (some a, s1)) :
    lookupA s1._loaded_archives p = some a := by
  simp only [NintendoDSRom.get_archive] at h
  cases hc : lookupA s._loaded_archives p with
  | some a0 =>
    rw [hc] at h
    simp only [Prod.mk.injEq, Option.some.injEq] at h
    rw [← h.2, ← h.1]
    exact hc
  | none =>
    rw [hc] at h
    rcases hmk : s.mk_archive p with ⟨oa, rom1⟩
    rw [hmk] at h
    have hml := mk_archive_loaded s p
    rw [hmk] at hml
    cases oa with
    | none => simp at h
    | some a0 =>
      simp only [Prod.mk.injEq, Option.some.injEq] at h
      rw [← h.2, ← h.1]
      show lookupA (rom1._loaded_archives ++ [(p, a0)]) p = some a0
      rw [hml]
      exact lookupA_append_self _ _ _ hc

/-! ### Length bookkeeping for the PLZ list operations -/

theorem idxOf?_lt_length (l : List (List Nat)) (x : List Nat) (i : Nat)
    (h : idxOf? l x = some i) : i < l.length := by
  induction l generalizing i with
  | nil => simp [idxOf?] at h
  | cons y ys ih =>
    by_cases hy : y = x
    · simp [idxOf?, hy] at h
      simp [List.length_cons]
      omega
    · simp only [idxOf?, hy, if_false, if_neg] at h
      cases hm : idxOf? ys x with
      | none => rw [hm] at h; simp at h
      | some j =>
        rw [hm] at h
        simp at h
        have := ih j hm
        simp [List.length_cons]
        omega

theorem length_eraseIdx_of_lt {α : Type} (l : List α) (i : Nat) (h : i < l.length) :
    (l.eraseIdx i).length = l.length - 1 := by
  induction l generalizing i with
  | nil => simp at h
  | cons y ys ih =>
    cases i with
    | zero => simp [List.eraseIdx]
    | succ j =>
      have hj : j < ys.length := by simpa using h
      have := ih j hj
      simp [List.eraseIdx, this]
      omega

theorem readRecords_lengths (fuel : Nat) : ∀ (r : BinaryReader) (afs : Nat)
    (ns fs res1 res2 : List (List Nat)),
    readRecords r afs ns fs fuel = some (res1, res2) →
    ns.length = fs.length → res1.length = res2.length := by
  induction fuel with
  | zero =>
    intro r afs ns fs r1 r2 h
    simp [readRecords] at h
  | succ k ih =>
    intro r afs ns fs r1 r2 h hlen
    rw [readRecords] at h
    split at h
    · exact ih _ _ _ _ _ _ h (by simp [hlen])
    · simp only [Option.some.injEq, Prod.mk.injEq] at h
      rw [← h.1, ← h.2]
      exact hlen

/-! ### Concrete states used by the claims -/

/-- Scenario B archive: entries ("x", [0x01,0x02,0x03]) and ("yy", []), with
the names as their byte lists. -/
def scenarioB_archive : PlzArchive := ⟨[[120], [121, 121]], [[1, 2, 3], []], []⟩

/-- Scenario A filesystem: folder `data/` holding `data/a.bin` at slot 0. -/
def scenarioA_rom : NintendoDSRom :=
  ⟨[[170]], .mk 0 [] (.cons "data" (.mk 0 ["a.bin"] .nil) .nil), [], [], []⟩

/-- A rom whose root (firstID 0, no files) holds one empty folder "d"
(firstID 0); no slots.  The `firstID` invariant holds vacuously here. -/
def emptyFolderRom : NintendoDSRom :=
  ⟨[], .mk 0 [] (.cons "d" (.mk 0 [] .nil) .nil), [], [], []⟩

/-- A rom with slots [[5],[6]] and folders a (firstID 0, file "x") and
b (firstID 1, file "y"). -/
def twoFolderRom : NintendoDSRom :=
  ⟨[[5], [6]],
   .mk 0 [] (.cons "a" (.mk 0 ["x"] .nil) (.cons "b" (.mk 1 ["y"] .nil) .nil)),
   [], [], []⟩

/-- An empty rom with one empty folder "data": the next id `add_file` hands
out is 0. -/
def createRom : NintendoDSRom :=
  ⟨[], .mk 0 [] (.cons "data" (.mk 0 [] .nil) .nil), [], [], []⟩

/-- A rom whose slot 1 holds the encoding of an empty PLZ archive at path
"data/a.plz". -/
def plzCacheRom : NintendoDSRom :=
  ⟨[[9], [16, 0, 0, 0, 16, 0, 0, 0, 80, 67, 75, 50, 0, 0, 0, 0]],
   .mk 0 [] (.cons "data" (.mk 0 ["j.bin", "a.plz"] .nil) .nil), [], [], []⟩

/-! ### The claims -/

/-- C1: for every archive state (names paired with byte buffers, names free of
the zero terminator byte, encoding within the u32 size fields), decoding the
bytes produced by encoding it yields an archive with the same names and the
same byte contents in the same order, whatever state the decoding archive
object had before. -/
theorem c1_decode_encode_roundtrip (a x : PlzArchive)
    (hnm : ∀ n ∈ a.filenames, ∀ b ∈ n, b ≠ 0)
    (hlen : a.filenames.length = a.files.length)
    (hsize : a.write_stream.length < 4294967296) :
    PlzArchive.read_stream x a.write_stream
      = .ok { x with filenames := a.filenames, files := a.files } :=
  read_write_roundtrip a x hnm hlen hsize

/-- C1 witness: the Scenario B archive with entries ("x", [1,2,3]) and
("yy", []) decodes from its own encoding. -/
theorem c1_decode_encode_roundtrip_witness :
    PlzArchive.read_stream ⟨[], [], []⟩ scenarioB_archive.write_stream
      = .ok ⟨[[120], [121, 121]], [[1, 2, 3], []], []⟩ :=
  c1_decode_encode_roundtrip scenarioB_archive ⟨[], [], []⟩
    (by decide) (by decide) (by decide)

/-- C2 (code bug): `add_file("d/x")` on `emptyFolderRom` returns id 0 and then
`increment_first_index_if_needed` bumps the ancestor root folder's `firstID`
to 1, although the only slot id reachable in the root's subtree is 0 — the
cascade increments ancestors of the target folder (contradicting the source
comment "Change the firstID of all the folders after our base folder"), so
`firstID` no longer equals the subtree minimum. -/
theorem c2_firstID_bug_eval :
    (emptyFolderRom.add_file "d/x").1 = some 0
    ∧ ((emptyFolderRom.add_file "d/x").2.filenames).firstID = 1
    ∧ ((emptyFolderRom.add_file "d/x").2.filenames).subtreeIDs = [0] :=
  ⟨rfl, rfl, rfl⟩

/-- C3 (code bug): the handle cascade iterates `self._opened_files`, which is
always empty (handles register themselves in `opened_files`).  After opening
"b/y" (id 1) and then `add_file("a/z")` (inserting at id 1), the handle is
still open with id 1 — now the freshly inserted empty slot — while the slot it
was opened against moved to id 2; it was neither shifted nor closed. -/
theorem c3_registry_bug_eval :
    ((twoFolderRom.open (.byPath "b/y") "rb").2.add_file "a/z").2.opened_files
        = [⟨1, 'r', [6]⟩]
    ∧ ((twoFolderRom.open (.byPath "b/y") "rb").2.add_file "a/z").2.files
        = [[5], [], [6]]
    ∧ ((twoFolderRom.open (.byPath "b/y") "rb").2.add_file
        "a/z").2.filenames.idOfPath "b/y" = some 2 :=
  ⟨rfl, rfl, rfl⟩

/-- C4 (code bug): opening an unresolvable path with the create flag calls
`add_file`, but the falsy test `if not fileid:` treats the valid new id 0 as
a failure: `open` raises `FileNotFoundError` even though the slot and the
name entry were already created — instead of returning a handle bound to
slot 0 as the claim states. -/
theorem c4_create_id0_bug_eval :
    (createRom.open (.byPath "data/x.bin") "rb+").1 = .error .notFound
    ∧ (createRom.open (.byPath "data/x.bin") "rb+").2.files = [[]]
    ∧ (((createRom.open (.byPath "data/x.bin") "rb+").2.filenames.getFolder
        ["data"]).map Folder.files) = some ["x.bin"] :=
  ⟨rfl, rfl, rfl⟩

/-- C5 counterexample: for the record with name "abc" (length 3) the encoder
writes a header size of 24, but align4(16 + 3 + 1) = 20 — the code's
`header_size += 4 - header_size % 4` adds 4 to a value that is already a
multiple of 4, so the claim's align4 formula is wrong there. -/
theorem c5_align4_counterexample :
    u32At (PlzArchive.write_stream ⟨[[97, 98, 99]], [[1]], []⟩) 16
      ≠ align4 (16 + ([97, 98, 99] : List Nat).length + 1) := by
  decide

/-- C5 (amended): for every record the encoder writes
record_header_size = the smallest multiple of 4 STRICTLY greater than
16 + len(name) + 1, and record_total_size = the smallest multiple of 4
strictly greater than record_header_size + payload_size (`next4 v =
4 * (v / 4 + 1)`); values already divisible by 4 are bumped a full step
rather than left unchanged. -/
theorem c5_record_sizes_amended (a : PlzArchive)
    (hsize : a.write_stream.length < 4294967296)
    (i : Nat) (hi : i < (a.filenames.zip a.files).length) :
    u32At a.write_stream (16 + sizeUpTo (a.filenames.zip a.files) i)
        = next4 (16 + ((a.filenames.zip a.files).getD i ([], [])).1.length + 1)
      ∧ u32At a.write_stream (16 + sizeUpTo (a.filenames.zip a.files) i + 4)
        = next4 (next4 (16 + ((a.filenames.zip a.files).getD i ([], [])).1.length + 1)
            + ((a.filenames.zip a.files).getD i ([], [])).2.length) := by
  have h := u32At_record_fields a hsize i hi
  rw [record_total_size_eq_next4, record_header_size_eq_next4] at h
  exact h

/-- C5 witness: for the single record with name "abc" and payload [1] the
encoder writes header size 24 and total size 28. -/
theorem c5_record_sizes_amended_witness :
    u32At (PlzArchive.write_stream ⟨[[97, 98, 99]], [[1]], []⟩) 16 = 24
      ∧ u32At (PlzArchive.write_stream ⟨[[97, 98, 99]], [[1]], []⟩) 20 = 28 :=
  c5_record_sizes_amended ⟨[[97, 98, 99]], [[1]], []⟩ (by decide) 0 (by decide)

/-- C6 counterexample: decoding all-zero bytes (magic ≠ "PCK2") on an archive
that previously held name [97] fails as claimed, but the name and file lists
are NOT left as they were: `read_stream` clears them before the magic check,
so the failed decode leaves both lists empty. -/
theorem c6_partial_state_counterexample :
    PlzArchive.read_stream ⟨[[97]], [[1]], []⟩ (List.replicate 12 0)
        = .error ⟨[], [], []⟩
    ∧ (⟨[], [], []⟩ : PlzArchive).filenames
        ≠ (⟨[[97]], [[1]], []⟩ : PlzArchive).filenames :=
  ⟨rfl, by decide⟩

/-- C6 (amended): decoding a buffer whose 4-byte magic field differs from
"PCK2" fails with the corrupt-format error before any record is parsed, and
the archive's name and file lists are reset to empty (not preserved). -/
theorem c6_magic_mismatch_amended (x : PlzArchive) (data : List Nat)
    (hmagic : (data.drop 8).take 4 ≠ pck2) :
    PlzArchive.read_stream x data
      = .error { x with filenames := [], files := [] } := by
  simp only [PlzArchive.read_stream]
  dsimp only [BinaryReader.read_uint32, BinaryReader.read, BinaryReader.seek]
  rw [show ((0 : Nat) + 4 + 4) = 8 from rfl]
  rw [if_neg hmagic]

/-- C6 witness: a 16-byte zero buffer decoded on an archive holding name
[104] yields the corrupt-format error with cleared lists. -/
theorem c6_magic_mismatch_amended_witness :
    PlzArchive.read_stream ⟨[[104]], [[2]], []⟩ (List.replicate 16 0)
      = .error { (⟨[[104]], [[2]], []⟩ : PlzArchive) with
          filenames := [], files := [] } :=
  c6_magic_mismatch_amended ⟨[[104]], [[2]], []⟩ (List.replicate 16 0) (by decide)

/-- C7: Scenario A — on a filesystem whose folder data/ holds exactly
data/a.bin at slot 0, add_file("data/b.bin") returns id 1 (firstID + number
of files) and leaves the folder list as [a.bin, b.bin]; removing data/a.bin
then leaves b.bin addressable at slot id 0 (its empty payload at slot 0). -/
theorem c7_scenario_a :
    (scenarioA_rom.add_file "data/b.bin").1 = some 1
    ∧ (((scenarioA_rom.add_file "data/b.bin").2.filenames.getFolder ["data"]).map
        Folder.files) = some ["a.bin", "b.bin"]
    ∧ ((scenarioA_rom.add_file "data/b.bin").2.remove_file
        "data/a.bin").filenames.idOfPath "data/b.bin" = some 0
    ∧ ((scenarioA_rom.add_file "data/b.bin").2.remove_file "data/a.bin").files
        = [[]] :=
  ⟨rfl, rfl, rfl, rfl⟩

/-- C8: whenever `get_archive` returns an archive, calling it again with the
same path returns the identical cached archive and the identical state — the
second call is a pure cache hit and performs no new decode or construction. -/
theorem c8_cache_identity (s : NintendoDSRom) (p : String) (a : PlzArchive)
    (s1 : NintendoDSRom) (h : s.get_archive p = (some a, s1)) :
    s1.get_archive p = (some a, s1) :=
  get_archive_cached s1 p a (get_archive_caches s p a s1 h)

/-- C8 witness: on `plzCacheRom` the first `get_archive "data/a.plz"` decodes
slot 1 into the empty archive and caches it; the second call returns the same
pair unchanged. -/
theorem c8_cache_identity_witness :
    NintendoDSRom.get_archive
        { plzCacheRom with _loaded_archives := [("data/a.plz", ⟨[], [], []⟩)] }
        "data/a.plz"
      = (some ⟨[], [], []⟩,
         { plzCacheRom with _loaded_archives := [("data/a.plz", ⟨[], [], []⟩)] }) :=
  c8_cache_identity plzCacheRom "data/a.plz" ⟨[], [], []⟩
    { plzCacheRom with _loaded_archives := [("data/a.plz", ⟨[], [], []⟩)] } rfl

/-- C9: the PLZ operations keep `len(filenames) = len(files)`: add_file
returns the pre-append `len(files)` and appends to both lists, remove_file
pops both at the same index (or does nothing), rename_file replaces a name in
place, and read_stream produces lists of equal length on every outcome — so
entry ids are always the contiguous range 0..n-1. -/
theorem c9_parallel_lists (a : PlzArchive)
    (h : a.filenames.length = a.files.length) :
    (∀ nm, (a.add_file nm).1 = a.files.length
        ∧ (a.add_file nm).2.filenames.length = (a.add_file nm).2.files.length)
    ∧ (∀ nm, (a.remove_file nm).filenames.length = (a.remove_file nm).files.length)
    ∧ (∀ o n, (a.rename_file o n).filenames.length = (a.rename_file o n).files.length)
    ∧ (∀ (x : PlzArchive) (data : List Nat) (s : PlzArchive),
        (PlzArchive.read_stream x data = .ok s ∨ PlzArchive.read_stream x data = .error s)
        → s.filenames.length = s.files.length) := by
  refine ⟨?_, ?_, ?_, ?_⟩
  · intro nm
    refine ⟨rfl, ?_⟩
    simp [PlzArchive.add_file, h]
  · intro nm
    simp only [PlzArchive.remove_file]
    cases hidx : idxOf? a.filenames nm with
    | none => exact h
    | some i =>
      have hi : i < a.filenames.length := idxOf?_lt_length _ _ _ hidx
      have hi2 : i < a.files.length := by omega
      simp only
      rw [length_eraseIdx_of_lt _ _ hi, length_eraseIdx_of_lt _ _ hi2, h]
  · intro o n
    simp only [PlzArchive.rename_file]
    cases hidx : idxOf? a.filenames o with
    | none => exact h
    | some i =>
      simp only [List.length_set]
      exact h
  · intro x data s hs
    have hread : ∀ (s2 : PlzArchive),
        (PlzArchive.read_stream x data = .ok s2 ∨
          PlzArchive.read_stream x data = .error s2)
        → s2.filenames.length = s2.files.length := by
      intro s2 hs2
      simp only [PlzArchive.read_stream] at hs2
      rcases hs2 with h2 | h2
      · split at h2
        · split at h2
          · rename_i ns fs hrec
            simp only [Except.ok.injEq] at h2
            rw [← h2]
            exact readRecords_lengths _ _ _ _ _ _ _ hrec rfl
          · simp at h2
        · simp at h2
      · split at h2
        · split at h2
          · simp at h2
          · simp only [Except.error.injEq] at h2
            rw [← h2]
        · simp only [Except.error.injEq] at h2
          rw [← h2]
    exact hread s hs

/-- C9 witness: on the empty archive, add_file returns 0 (the pre-append
length) and leaves the two lists at equal length. -/
theorem c9_parallel_lists_witness :
    ((⟨[], [], []⟩ : PlzArchive).add_file [104]).1 = 0
    ∧ ((⟨[], [], []⟩ : PlzArchive).add_file [104]).2.filenames.length
        = ((⟨[], [], []⟩ : PlzArchive).add_file [104]).2.files.length :=
  (c9_parallel_lists ⟨[], [], []⟩ rfl).1 [104]

/-- C10: opening by integer id never calls add_file and leaves the file list
and every name structure unchanged, for every id and mode string, on both the
outer filesystem and a nested PLZ archive — the create flag only matters for
string paths. -/
theorem c10_open_by_id_frame :
    (∀ (rom : NintendoDSRom) (i : Nat) (m : String),
        (rom.open (.byId i) m).2.files = rom.files
        ∧ (rom.open (.byId i) m).2.filenames = rom.filenames
        ∧ (rom.open (.byId i) m).2._loaded_archives = rom._loaded_archives)
    ∧ (∀ (a : PlzArchive) (i : Nat) (m : String),
        (a.open (.byId i) m).2.files = a.files
        ∧ (a.open (.byId i) m).2.filenames = a.filenames) := by
  constructor
  · intro rom i m
    simp only [NintendoDSRom.open]
    cases hpm : parseMode m with
    | none => exact ⟨rfl, rfl, rfl⟩
    | some t =>
      obtain ⟨op, bin, create⟩ := t
      dsimp only
      cases hfn : rom.filenames.filenameOf "" i with
      | none => exact ⟨rfl, rfl, rfl⟩
      | some nm => exact mkRomFile_frame rom i op
  · intro a i m
    simp only [PlzArchive.open]
    cases hpm : parseMode m with
    | none => exact ⟨rfl, rfl⟩
    | some t =>
      obtain ⟨op, bin, create⟩ := t
      exact plz_mkRomFile_frame a i op

end LaytonFS
